import Mathlib

/-!
Verification of the repository's session-scoped conversational history store
(the notebook's `store` dictionary, `get_session_history` and
`filter_messages`) and of the brute-force vector index its specification
describes around the notebook's vector-store usage.
-/

/-- Speaker role of one conversational turn (spec data model: user, assistant,
system). -/
inductive Role where
  | user
  | assistant
  | system
deriving DecidableEq

/-- One message of a conversation: a role with its text; the notebooks build
these as `HumanMessage(content=...)` and `AIMessage(content=...)`. -/
structure Turn where
  role : Role
  text : String
deriving DecidableEq

/-- Python list slicing `xs[i:]` with an integer start index: a negative start
counts from the end, so `xs[i:]` is `xs` from position `max(0, len + i)` on. -/
def pySliceFrom (xs : List α) (i : Int) : List α :=
  if i < 0 then xs.drop (xs.length - min xs.length i.natAbs)
  else xs.drop i.toNat

/-- The notebook's windowing function, verbatim
`def filter_messages(messages, k=10): return messages[-k:]`. -/
def filter_messages (messages : List Turn) (k : Int := 10) : List Turn :=
  pySliceFrom messages (-k)

/-- The chain's truncation step, which calls `filter_messages` with its
default `k` (the lambda the notebook assigns to the `messages` key). -/
def chain_messages (messages : List Turn) : List Turn :=
  filter_messages messages

/-- The tutorial's global `store` dictionary: session key to ordered
transcript; a `ChatMessageHistory` is modelled as its list of messages. -/
abbrev Store := List (String × List Turn)

/-- Dictionary lookup `store[session_id]` (None when the key is absent). -/
def lookupS (s : Store) (key : String) : Option (List Turn) :=
  match s with
  | [] => none
  | p :: rest => if p.1 = key then some p.2 else lookupS rest key

/-- Dictionary update `store[session_id] = v`: replace the key's value in
place, or add the key when absent. -/
def setS (s : Store) (key : String) (v : List Turn) : Store :=
  match s with
  | [] => [(key, v)]
  | p :: rest => if p.1 = key then (p.1, v) :: rest else p :: setS rest key v

/-- The transcript a caller can observe for a key: the stored list of turns,
empty when the key is unknown. -/
def obsTurns (s : Store) (key : String) : List Turn :=
  (lookupS s key).getD []

/-- `get_session_history` from the notebook: an unknown session id gets a
fresh empty history stored under the key, and the key's history is returned.
The state-passing translation returns the possibly-extended store alongside
the session's transcript. -/
def get_session_history (s : Store) (session_id : String) : Store × List Turn :=
  match lookupS s session_id with
  | some h => (s, h)
  | none => (setS s session_id [], [])

/-- Modelled from the spec: `append(session_key, turn)` - the repository
appends through the library's `RunnableWithMessageHistory`, whose code is not
under src/; the spec says the turn is added to the end of the named session's
sequence, creating the session if absent. -/
def append (s : Store) (key : String) (t : Turn) : Store :=
  let p := get_session_history s key
  setS p.1 key (p.2 ++ [t])

/-- Modelled from the spec: `reset(session_key)` - clears the ordered
sequence for a session without removing the key; the repository would reach
this through the library's `ChatMessageHistory.clear`, not under src/. -/
def reset (s : Store) (key : String) : Store :=
  let p := get_session_history s key
  setS p.1 key []

/-- Modelled from the spec: `window(session_key, k)` - load the named
session's transcript with `get_session_history` (src) and truncate it with
`filter_messages` (src), returning the possibly-extended store alongside. -/
def window (s : Store) (key : String) (k : Int) : Store × List Turn :=
  let p := get_session_history s key
  (p.1, filter_messages p.2 k)

/-- A whole conversation: a sequence of `append` calls run over the empty
store. -/
def runAppends (ops : List (String × Turn)) : Store :=
  ops.foldl (fun s op => append s op.1 op.2) []

/-- The store invariant "exactly one Session object per key". -/
def nodupKeys (s : Store) : Prop :=
  (s.map Prod.fst).Nodup

/-- An embedding vector (spec data model: fixed-length numeric vector), with
exact rational components. -/
abbrev Vec := List ℚ

/-- Modelled from the spec: `VectorRecord` - id, content, metadata mapping and
embedding. The repository only builds library `Document` objects; the vector
store holding them is a library component not under src/. -/
structure VectorRecord where
  id : ℕ
  content : String
  metadata : List (String × ℚ)
  embedding : Vec
deriving DecidableEq

/-- The three metrics the spec requires: cosine similarity, dot product and
Euclidean distance; the first two are similarity metrics, the third a
distance. -/
inductive Metric where
  | cosine
  | dotProduct
  | euclidean
deriving DecidableEq

/-- Errors of the vector index component. -/
inductive VError where
  | DimensionMismatch
deriving DecidableEq

/-- Modelled from the spec: `VectorIndex` - the established dimensionality
(none before the first insert) and the records in insertion order. -/
structure VectorIndex where
  dim : Option ℕ
  records : List VectorRecord
deriving DecidableEq

/-- A vector index holding nothing, with no established dimensionality. -/
def emptyIndex : VectorIndex := ⟨none, []⟩

/-- Componentwise dot product of two rational vectors. -/
def dotQ (u v : Vec) : ℚ :=
  (List.zipWith (· * ·) u v).sum

/-- Sum of squares of a vector: the square of its Euclidean norm. -/
def sumSq (u : Vec) : ℚ :=
  dotQ u u

/-- Squared Euclidean distance between two vectors. -/
def sqDist (u v : Vec) : ℚ :=
  (List.zipWith (fun a b => (a - b) ^ 2) u v).sum

/-- The signed square `x * abs x`, a strictly monotone function; comparing
signed squares of real scores is exact rational arithmetic for the two
root-valued metrics. -/
def signedSq (a : ℚ) : ℚ :=
  a * |a|

/-- Cosine similarity as a real number. -/
noncomputable def cosineSim (u v : Vec) : ℝ :=
  (dotQ u v : ℝ) / (Real.sqrt (sumSq u) * Real.sqrt (sumSq v))

/-- Euclidean distance as a real number. -/
noncomputable def euclideanDist (u v : Vec) : ℝ :=
  Real.sqrt (sqDist u v)

/-- Modelled from the spec: the raw score `metric(query_embedding, e)`. -/
noncomputable def score (m : Metric) (qv e : Vec) : ℝ :=
  match m with
  | .cosine => cosineSim qv e
  | .dotProduct => (dotQ qv e : ℝ)
  | .euclidean => euclideanDist qv e

/-- Similarity metrics sort descending by score; distance metrics ascending. -/
def isSimilarity (m : Metric) : Bool :=
  match m with
  | .euclidean => false
  | _ => true

/-- An exact rational key that orders embeddings identically to the
real-valued `score` (theorem `qkey_lt_iff`): the dot product itself, the
squared Euclidean distance, and the signed square of the cosine similarity. -/
def qkey (m : Metric) (qv e : Vec) : ℚ :=
  match m with
  | .cosine => signedSq (dotQ qv e) / (sumSq qv * sumSq e)
  | .dotProduct => dotQ qv e
  | .euclidean => sqDist qv e

/-- The sort key with the metric's direction folded in: strictly smaller
`normKey` means strictly better rank (higher similarity / smaller distance). -/
def normKey (m : Metric) (qv e : Vec) : ℚ :=
  if isSimilarity m then -qkey m qv e else qkey m qv e

/-- Does embedding e1 strictly outrank embedding e2 for query qv? -/
def rankLtB (m : Metric) (qv e1 e2 : Vec) : Bool :=
  decide (normKey m qv e1 < normKey m qv e2)

/-- The comparator by which query results are ordered: by score in the
metric's direction, ties broken by insertion position (earlier first). -/
def tagLtB (m : Metric) (qv : Vec) (p1 p2 : ℕ × VectorRecord) : Bool :=
  rankLtB m qv p1.2.embedding p2.2.embedding ||
    (!rankLtB m qv p2.2.embedding p1.2.embedding && decide (p1.1 < p2.1))

/-- Insert into an already-ranked list: the element goes before the first
element it strictly outranks, after everything it ties with or loses to. -/
def insertRanked (lt : α → α → Bool) (a : α) : List α → List α
  | [] => [a]
  | b :: bs => if lt a b then a :: b :: bs else b :: insertRanked lt a bs

/-- Stable sort: elements are inserted in list order, so equal-rank elements
keep their original relative order. -/
def stableSort (lt : α → α → Bool) (xs : List α) : List α :=
  xs.foldl (fun acc a => insertRanked lt a acc) []

/-- Tag each element with its position in the list, starting at n. -/
def tagFrom (n : ℕ) : List α → List (ℕ × α)
  | [] => []
  | r :: rs => (n, r) :: tagFrom (n + 1) rs

/-- The raw-score threshold translated to the rational key scale (the signed
square for the two root-valued metrics). -/
def threshKey (m : Metric) (θ : ℚ) : ℚ :=
  match m with
  | .dotProduct => θ
  | _ => signedSq θ

/-- Modelled from the spec: threshold filtering - keep a record exactly when
its raw score is at least as similar (similarity metrics), or at most as far
(distance metric), as the threshold; theorem `passesThreshold_iff` relates
the rational comparison to the real scores. -/
def passesThreshold (m : Metric) (qv e : Vec) (θ : ℚ) : Bool :=
  if isSimilarity m then decide (threshKey m θ ≤ qkey m qv e)
  else decide (qkey m qv e ≤ threshKey m θ)

/-- The records surviving the optional threshold, each tagged with its
insertion position. -/
def filteredTags (rs : List VectorRecord) (qv : Vec) (m : Metric)
    (t : Option ℚ) : List (ℕ × VectorRecord) :=
  match t with
  | none => tagFrom 0 rs
  | some θ => (tagFrom 0 rs).filter (fun p => passesThreshold m qv p.2.embedding θ)

namespace VectorIndex

/-- Modelled from the spec: the scan-filter-sort pipeline of `query` on the
stored records - score every record, drop the ones failing the threshold,
stable-sort by score in the metric's direction with ties broken by insertion
order - with each record's insertion position kept alongside. -/
def queryTagged (rs : List VectorRecord) (qv : Vec) (m : Metric)
    (t : Option ℚ) : List (ℕ × VectorRecord) :=
  stableSort (tagLtB m qv) (filteredTags rs qv m t)

/-- Modelled from the spec: `query(query_embedding, k, metric, threshold)` -
brute-force scan, optional threshold, sort (descending score for similarity
metrics, ascending for distance, ties by insertion order), truncate to the
top k (k ≤ 0 yields the empty result); DimensionMismatch when the query
vector disagrees with the index's established dimensionality; an index that
never established one holds no records and yields the empty result. -/
def query (idx : VectorIndex) (qv : Vec) (k : Int) (m : Metric)
    (t : Option ℚ) : Except VError (List VectorRecord) :=
  match idx.dim with
  | none => .ok []
  | some d =>
    if qv.length = d then
      .ok (((queryTagged idx.records qv m t).map Prod.snd).take k.toNat)
    else .error .DimensionMismatch

/-- Modelled from the spec: `insert(record)` - establish the dimensionality
on the first insert, validate it afterwards, failing with DimensionMismatch;
on success append the record to the collection. -/
def insert (idx : VectorIndex) (r : VectorRecord) : Except VError VectorIndex :=
  match idx.dim with
  | none => .ok ⟨some r.embedding.length, idx.records ++ [r]⟩
  | some d =>
    if r.embedding.length = d then .ok ⟨some d, idx.records ++ [r]⟩
    else .error .DimensionMismatch

end VectorIndex

theorem lookupS_setS_self (s : Store) (key : String) (v : List Turn) :
    lookupS (setS s key v) key = some v := by
  induction s with
  | nil => simp [setS, lookupS]
  | cons p rest ih =>
    by_cases h : p.1 = key
    · simp [setS, lookupS, h]
    · simp [setS, lookupS, h, ih]

theorem lookupS_setS_ne (s : Store) (k1 k2 : String) (v : List Turn)
    (h : k1 ≠ k2) : lookupS (setS s k1 v) k2 = lookupS s k2 := by
  induction s with
  | nil => simp [setS, lookupS, h]
  | cons p rest ih =>
    by_cases hp : p.1 = k1
    · simp [setS, lookupS, hp, h, ih]
    · by_cases hq : p.1 = k2
      · simp [setS, lookupS, hp, hq, Ne.symm h]
      · simp [setS, lookupS, hp, hq, ih]

theorem setS_setS (s : Store) (key : String) (v w : List Turn) :
    setS (setS s key v) key w = setS s key w := by
  induction s with
  | nil => simp [setS]
  | cons p rest ih =>
    by_cases h : p.1 = key
    · simp [setS, h]
    · simp [setS, h, ih]

theorem get_session_history_known (s : Store) (key : String) (h : List Turn)
    (hl : lookupS s key = some h) : get_session_history s key = (s, h) := by
  unfold get_session_history
  rw [hl]

theorem get_session_history_unknown (s : Store) (key : String)
    (hl : lookupS s key = none) :
    get_session_history s key = (setS s key [], []) := by
  unfold get_session_history
  rw [hl]

theorem filter_messages_pos (msgs : List Turn) (k : Int) (hk : 1 ≤ k) :
    filter_messages msgs k = msgs.drop (msgs.length - k.toNat) := by
  unfold filter_messages pySliceFrom
  rw [if_pos (by omega : -k < 0)]
  congr 1
  omega

theorem filter_messages_pos_length (msgs : List Turn) (k : Int) (hk : 1 ≤ k) :
    (filter_messages msgs k).length = min k.toNat msgs.length := by
  rw [filter_messages_pos msgs k hk, List.length_drop]
  omega

theorem filter_messages_nil (k : Int) : filter_messages [] k = [] := by
  unfold filter_messages pySliceFrom
  by_cases h : -k < 0 <;> simp [h]

/-- C1 (counterexample, k = 0): after a single `append`, `window` with k = 0
returns the whole transcript - Python `messages[-0:]` is `messages[0:]` -
while the claim demands the last min(0, 1) = 0 turns, the empty sequence. -/
theorem window_zero_counterexample :
    (window (runAppends [("s1", ⟨Role.user, "hi"⟩)]) "s1" 0).2 =
      [⟨Role.user, "hi"⟩]
    ∧ (window (runAppends [("s1", ⟨Role.user, "hi"⟩)]) "s1" 0).2 ≠ [] := by
  constructor
  · rfl
  · decide

/-- C1 (amended: k restricted to k ≥ 1): after any sequence of `append`
calls, `window(key, k)` returns exactly the last min(k, length) turns of the
key's transcript in original order, and leaves every stored transcript
observably unchanged. -/
theorem window_last_min_pos (ops : List (String × Turn)) (key : String)
    (k : Int) (hk : 1 ≤ k) :
    (window (runAppends ops) key k).2 =
      (obsTurns (runAppends ops) key).drop
        ((obsTurns (runAppends ops) key).length - k.toNat)
    ∧ (window (runAppends ops) key k).2.length =
        min k.toNat (obsTurns (runAppends ops) key).length
    ∧ ∀ key2, obsTurns ((window (runAppends ops) key k).1) key2 =
        obsTurns (runAppends ops) key2 := by
  set s := runAppends ops with hs
  cases hl : lookupS s key with
  | some h =>
    have hw : window s key k = (s, filter_messages h k) := by
      unfold window
      rw [get_session_history_known s key h hl]
    rw [hw]
    refine ⟨?_, ?_, fun key2 => rfl⟩
    · rw [filter_messages_pos _ _ hk]
      simp [obsTurns, hl]
    · rw [filter_messages_pos_length _ _ hk]
      simp [obsTurns, hl]
  | none =>
    have hw : window s key k = (setS s key [], filter_messages [] k) := by
      unfold window
      rw [get_session_history_unknown s key hl]
    rw [hw]
    refine ⟨?_, ?_, fun key2 => ?_⟩
    · simp [filter_messages_nil, obsTurns, hl]
    · simp [filter_messages_nil, obsTurns, hl]
    · by_cases hkey : key = key2
      · subst hkey
        simp [obsTurns, lookupS_setS_self, hl]
      · simp [obsTurns, lookupS_setS_ne s key key2 [] hkey]

/-- C1 witness: two turns appended to session s1, window of size 1. -/
theorem window_last_min_pos_witness :
    (1 : Int) ≤ 1
    ∧ ((window (runAppends [("s1", ⟨Role.user, "hi"⟩),
            ("s1", ⟨Role.assistant, "hello"⟩)]) "s1" 1).2 =
        (obsTurns (runAppends [("s1", ⟨Role.user, "hi"⟩),
            ("s1", ⟨Role.assistant, "hello"⟩)]) "s1").drop
          ((obsTurns (runAppends [("s1", ⟨Role.user, "hi"⟩),
              ("s1", ⟨Role.assistant, "hello"⟩)]) "s1").length - (1 : Int).toNat)
      ∧ (window (runAppends [("s1", ⟨Role.user, "hi"⟩),
            ("s1", ⟨Role.assistant, "hello"⟩)]) "s1" 1).2.length =
          min (1 : Int).toNat
            (obsTurns (runAppends [("s1", ⟨Role.user, "hi"⟩),
              ("s1", ⟨Role.assistant, "hello"⟩)]) "s1").length
      ∧ ∀ key2, obsTurns ((window (runAppends [("s1", ⟨Role.user, "hi"⟩),
            ("s1", ⟨Role.assistant, "hello"⟩)]) "s1" 1).1) key2 =
          obsTurns (runAppends [("s1", ⟨Role.user, "hi"⟩),
            ("s1", ⟨Role.assistant, "hello"⟩)]) key2) :=
  ⟨by decide,
    window_last_min_pos [("s1", ⟨Role.user, "hi"⟩),
      ("s1", ⟨Role.assistant, "hello"⟩)] "s1" 1 (by decide)⟩

/-- C2 (code bug, evaluated at the failing input): `filter_messages` with
k = 0 returns the whole message list - Python `messages[-0:]` is
`messages[0:]` - not the empty sequence the spec states. -/
theorem filter_messages_zero_returns_all :
    filter_messages [⟨Role.user, "hi"⟩] 0 = [⟨Role.user, "hi"⟩] := by
  decide

/-- C7: `window` on a key never appended to returns the empty sequence, and
the resulting store is the very store a fresh `reset` of that key produces. -/
theorem window_unknown_key (s : Store) (key : String) (k : Int)
    (hl : lookupS s key = none) :
    (window s key k).2 = [] ∧ (window s key k).1 = reset s key := by
  have hw : window s key k = (setS s key [], filter_messages [] k) := by
    unfold window
    rw [get_session_history_unknown s key hl]
  have hr : reset s key = setS s key [] := by
    unfold reset
    rw [get_session_history_unknown s key hl, setS_setS]
  rw [hw, hr]
  exact ⟨filter_messages_nil k, rfl⟩

/-- C7 witness: the empty store and session key s9. -/
theorem window_unknown_key_witness :
    lookupS ([] : Store) "s9" = none
    ∧ ((window ([] : Store) "s9" 4).2 = []
      ∧ (window ([] : Store) "s9" 4).1 = reset ([] : Store) "s9") :=
  ⟨rfl, window_unknown_key [] "s9" 4 rfl⟩

/-- C8 (counterexample): a negative k is not rejected with an error - the
code returns a sequence of turns, the Python slice `messages[-k:]`, here
`messages[1:]`. -/
theorem filter_messages_negative_counterexample :
    filter_messages [⟨Role.user, "a"⟩, ⟨Role.assistant, "b"⟩,
        ⟨Role.user, "c"⟩] (-1) =
      [⟨Role.assistant, "b"⟩, ⟨Role.user, "c"⟩] := by
  decide

/-- C8 (amended): for negative k `filter_messages` performs no validation and
raises nothing; it returns the Python slice `messages[-k:]`, the messages
after dropping the first |k|. -/
theorem filter_messages_negative_slices (messages : List Turn) (k : Int)
    (hk : k < 0) : filter_messages messages k = messages.drop k.natAbs := by
  unfold filter_messages pySliceFrom
  rw [if_neg (by omega : ¬-k < 0)]
  congr 1
  omega

/-- C8 witness: three messages, k = -1. -/
theorem filter_messages_negative_slices_witness :
    (-1 : Int) < 0
    ∧ filter_messages [⟨Role.user, "a"⟩, ⟨Role.assistant, "b"⟩,
          ⟨Role.user, "c"⟩] (-1) =
        [⟨Role.user, "a"⟩, ⟨Role.assistant, "b"⟩,
          ⟨Role.user, "c"⟩].drop (-1 : Int).natAbs :=
  ⟨by decide,
    filter_messages_negative_slices
      [⟨Role.user, "a"⟩, ⟨Role.assistant, "b"⟩, ⟨Role.user, "c"⟩] (-1)
      (by decide)⟩

theorem keys_setS_sub (s : Store) (key : String) (v : List Turn) :
    ∀ x ∈ (setS s key v).map Prod.fst, x ∈ s.map Prod.fst ∨ x = key := by
  induction s with
  | nil => simp [setS]
  | cons p rest ih =>
    by_cases h : p.1 = key
    · simp [setS, h]
      tauto
    · intro x hx
      simp only [setS, if_neg h, List.map_cons, List.mem_cons] at hx ⊢
      rcases hx with hx | hx
      · tauto
      · rcases ih x hx with h2 | h2 <;> tauto

theorem nodupKeys_setS (s : Store) (key : String) (v : List Turn)
    (h : nodupKeys s) : nodupKeys (setS s key v) := by
  induction s with
  | nil => simp [setS, nodupKeys]
  | cons p rest ih =>
    rw [nodupKeys, List.map_cons, List.nodup_cons] at h
    by_cases hp : p.1 = key
    · rw [nodupKeys]
      simp only [setS, if_pos hp, List.map_cons, List.nodup_cons]
      exact h
    · rw [nodupKeys]
      simp only [setS, if_neg hp, List.map_cons, List.nodup_cons]
      refine ⟨fun hmem => ?_, ih h.2⟩
      rcases keys_setS_sub rest key v p.1 hmem with h2 | h2
      · exact h.1 h2
      · exact hp h2

theorem gsh_fst_lookup_ne (s : Store) (k1 k2 : String) (h : k1 ≠ k2) :
    lookupS (get_session_history s k1).1 k2 = lookupS s k2 := by
  cases hl : lookupS s k1 with
  | some v => rw [get_session_history_known s k1 v hl]
  | none =>
    rw [get_session_history_unknown s k1 hl]
    exact lookupS_setS_ne s k1 k2 [] h

theorem nodupKeys_gsh (s : Store) (k1 : String) (h : nodupKeys s) :
    nodupKeys (get_session_history s k1).1 := by
  cases hl : lookupS s k1 with
  | some v => rw [get_session_history_known s k1 v hl]; exact h
  | none =>
    rw [get_session_history_unknown s k1 hl]
    exact nodupKeys_setS s k1 [] h

/-- C9: operations on one session key neither read nor write another key's
transcript, and each of them preserves the one-Session-per-key invariant. -/
theorem session_isolation (s : Store) (k1 k2 : String) (t : Turn) (k : Int)
    (hne : k1 ≠ k2) :
    lookupS (append s k1 t) k2 = lookupS s k2
    ∧ lookupS ((window s k1 k).1) k2 = lookupS s k2
    ∧ lookupS (reset s k1) k2 = lookupS s k2
    ∧ (nodupKeys s → nodupKeys (append s k1 t)
        ∧ nodupKeys ((window s k1 k).1) ∧ nodupKeys (reset s k1)) := by
  refine ⟨?_, ?_, ?_, fun hnd => ⟨?_, ?_, ?_⟩⟩
  · show lookupS (setS (get_session_history s k1).1 k1 _) k2 = lookupS s k2
    rw [lookupS_setS_ne _ _ _ _ hne, gsh_fst_lookup_ne s k1 k2 hne]
  · show lookupS (get_session_history s k1).1 k2 = lookupS s k2
    exact gsh_fst_lookup_ne s k1 k2 hne
  · show lookupS (setS (get_session_history s k1).1 k1 _) k2 = lookupS s k2
    rw [lookupS_setS_ne _ _ _ _ hne, gsh_fst_lookup_ne s k1 k2 hne]
  · exact nodupKeys_setS _ k1 _ (nodupKeys_gsh s k1 hnd)
  · exact nodupKeys_gsh s k1 hnd
  · exact nodupKeys_setS _ k1 _ (nodupKeys_gsh s k1 hnd)

/-- C9 witness: keys a and b over the singleton store for a. -/
theorem session_isolation_witness :
    ("a" : String) ≠ "b"
    ∧ (lookupS (append [("a", [])] "a" ⟨Role.user, "x"⟩) "b" =
        lookupS [("a", [])] "b"
      ∧ lookupS ((window [("a", [])] "a" 1).1) "b" = lookupS [("a", [])] "b"
      ∧ lookupS (reset [("a", [])] "a") "b" = lookupS [("a", [])] "b"
      ∧ (nodupKeys [("a", [])] → nodupKeys (append [("a", [])] "a" ⟨Role.user, "x"⟩)
          ∧ nodupKeys ((window [("a", [])] "a" 1).1)
          ∧ nodupKeys (reset [("a", [])] "a"))) :=
  ⟨by decide, session_isolation [("a", [])] "a" "b" ⟨Role.user, "x"⟩ 1 (by decide)⟩

/-- C10: invoked as the chain invokes it - without an explicit k -
`filter_messages` windows with the default k = 10, so any list of at least
10 messages is cut to exactly its 10 most recent and every older message is
dropped. -/
theorem chain_default_window_ten (messages : List Turn)
    (h : 10 ≤ messages.length) :
    chain_messages messages = messages.drop (messages.length - 10)
    ∧ (chain_messages messages).length = 10 := by
  have h1 : chain_messages messages = messages.drop (messages.length - 10) := by
    unfold chain_messages
    rw [filter_messages_pos messages 10 (by omega)]
    congr 1
  refine ⟨h1, ?_⟩
  rw [h1, List.length_drop]
  omega

/-- C10 witness: eleven identical messages. -/
theorem chain_default_window_ten_witness :
    10 ≤ (List.replicate 11 (Turn.mk Role.user "m")).length
    ∧ (chain_messages (List.replicate 11 (Turn.mk Role.user "m")) =
        (List.replicate 11 (Turn.mk Role.user "m")).drop
          ((List.replicate 11 (Turn.mk Role.user "m")).length - 10)
      ∧ (chain_messages (List.replicate 11 (Turn.mk Role.user "m"))).length = 10) :=
  ⟨by decide, chain_default_window_ten (List.replicate 11 (Turn.mk Role.user "m"))
    (by decide)⟩

theorem sumSq_nonneg (u : Vec) : 0 ≤ sumSq u := by
  induction u with
  | nil => simp [sumSq, dotQ]
  | cons a u ih =>
    have h : sumSq (a :: u) = a * a + sumSq u := by
      simp [sumSq, dotQ]
    rw [h]
    have := mul_self_nonneg a
    linarith

theorem sqDist_cons (a b : ℚ) (u v : Vec) :
    sqDist (a :: u) (b :: v) = (a - b) ^ 2 + sqDist u v := by
  simp [sqDist]

theorem sqDist_nonneg (u v : Vec) : 0 ≤ sqDist u v := by
  induction u generalizing v with
  | nil => simp [sqDist]
  | cons a u ih =>
    cases v with
    | nil => simp [sqDist]
    | cons b v =>
      rw [sqDist_cons]
      have := sq_nonneg (a - b)
      have := ih v
      linarith

theorem sqDist_self (u : Vec) : sqDist u u = 0 := by
  induction u with
  | nil => simp [sqDist]
  | cons a u ih =>
    rw [sqDist_cons, ih]
    ring

theorem sqDist_eq_zero_iff (u v : Vec) (hl : u.length = v.length) :
    sqDist u v = 0 ↔ u = v := by
  induction u generalizing v with
  | nil =>
    cases v with
    | nil => simp [sqDist]
    | cons b v => simp at hl
  | cons a u ih =>
    cases v with
    | nil => simp at hl
    | cons b v =>
      rw [sqDist_cons]
      simp only [List.length_cons, Nat.add_right_cancel_iff] at hl
      constructor
      · intro h
        have h1 : (a - b) ^ 2 = 0 := by
          have := sq_nonneg (a - b)
          have := sqDist_nonneg u v
          linarith
        have h2 : sqDist u v = 0 := by
          have := sq_nonneg (a - b)
          linarith
        have ha : a = b := by
          have := pow_eq_zero_iff (n := 2) (by omega) |>.mp h1
          linarith [sub_eq_zero.mp this]
        rw [ha, (ih v hl).mp h2]
      · intro h
        injection h with h1 h2
        subst h1
        rw [(ih v hl).mpr h2]
        ring

theorem strictMono_mul_abs : StrictMono (fun x : ℝ => x * |x|) := by
  intro x y hxy
  simp only
  rcases le_or_lt 0 x with hx | hx
  · have hy : 0 < y := lt_of_le_of_lt hx hxy
    rw [abs_of_nonneg hx, abs_of_pos hy]
    exact mul_self_lt_mul_self hx hxy
  · rcases le_or_lt 0 y with hy | hy
    · have h1 : x * |x| < 0 := by
        rw [abs_of_neg hx]
        have : 0 < x * -x → False := by
          intro hc
          nlinarith
        nlinarith
      have h2 : 0 ≤ y * |y| := by
        rw [abs_of_nonneg hy]
        exact mul_self_nonneg y
      linarith
    · rw [abs_of_neg hx, abs_of_neg hy]
      have h1 : 0 < -y := by linarith
      have h2 : -y < -x := by linarith
      nlinarith

theorem cosineSim_mul_abs (qv e : Vec) :
    cosineSim qv e * |cosineSim qv e| = ((qkey .cosine qv e : ℚ) : ℝ) := by
  unfold cosineSim qkey signedSq
  have hq : (0 : ℝ) ≤ (sumSq qv : ℝ) := by exact_mod_cast sumSq_nonneg qv
  have he : (0 : ℝ) ≤ (sumSq e : ℝ) := by exact_mod_cast sumSq_nonneg e
  have hy : (0 : ℝ) ≤ Real.sqrt (sumSq qv) * Real.sqrt (sumSq e) :=
    mul_nonneg (Real.sqrt_nonneg _) (Real.sqrt_nonneg _)
  have hyy : Real.sqrt (sumSq qv) * Real.sqrt (sumSq e) *
      (Real.sqrt (sumSq qv) * Real.sqrt (sumSq e)) = (sumSq qv : ℝ) * (sumSq e : ℝ) := by
    rw [mul_mul_mul_comm, Real.mul_self_sqrt hq, Real.mul_self_sqrt he]
  push_cast
  rw [abs_div, div_mul_div_comm, abs_of_nonneg hy, hyy]

theorem euclideanDist_mul_abs (qv e : Vec) :
    euclideanDist qv e * |euclideanDist qv e| = ((qkey .euclidean qv e : ℚ) : ℝ) := by
  unfold euclideanDist qkey
  have h : (0 : ℝ) ≤ (sqDist qv e : ℝ) := by exact_mod_cast sqDist_nonneg qv e
  rw [abs_of_nonneg (Real.sqrt_nonneg _), Real.mul_self_sqrt h]

/-- The rational key orders two embeddings exactly as the real score does. -/
theorem qkey_lt_iff (m : Metric) (qv e1 e2 : Vec) :
    qkey m qv e1 < qkey m qv e2 ↔ score m qv e1 < score m qv e2 := by
  cases m with
  | cosine =>
    show qkey .cosine qv e1 < qkey .cosine qv e2 ↔ cosineSim qv e1 < cosineSim qv e2
    rw [← strictMono_mul_abs.lt_iff_lt, cosineSim_mul_abs, cosineSim_mul_abs,
      Rat.cast_lt]
  | dotProduct =>
    show qkey .dotProduct qv e1 < qkey .dotProduct qv e2 ↔
      ((dotQ qv e1 : ℚ) : ℝ) < ((dotQ qv e2 : ℚ) : ℝ)
    rw [Rat.cast_lt]
    rfl
  | euclidean =>
    show qkey .euclidean qv e1 < qkey .euclidean qv e2 ↔
      euclideanDist qv e1 < euclideanDist qv e2
    rw [← strictMono_mul_abs.lt_iff_lt, euclideanDist_mul_abs,
      euclideanDist_mul_abs, Rat.cast_lt]

theorem qkey_le_iff (m : Metric) (qv e1 e2 : Vec) :
    qkey m qv e1 ≤ qkey m qv e2 ↔ score m qv e1 ≤ score m qv e2 := by
  rw [← not_lt, ← not_lt, qkey_lt_iff]

theorem qkey_eq_iff (m : Metric) (qv e1 e2 : Vec) :
    qkey m qv e1 = qkey m qv e2 ↔ score m qv e1 = score m qv e2 := by
  rw [le_antisymm_iff, le_antisymm_iff, qkey_le_iff, qkey_le_iff]

theorem tagLtB_iff (m : Metric) (qv : Vec) (p1 p2 : ℕ × VectorRecord) :
    tagLtB m qv p1 p2 = true ↔
      normKey m qv p1.2.embedding < normKey m qv p2.2.embedding
      ∨ (normKey m qv p1.2.embedding = normKey m qv p2.2.embedding ∧ p1.1 < p2.1) := by
  unfold tagLtB rankLtB
  simp only [Bool.or_eq_true, Bool.and_eq_true, Bool.not_eq_true', decide_eq_true_eq,
    decide_eq_false_iff_not]
  constructor
  · rintro (h | ⟨h1, h2⟩)
    · exact Or.inl h
    · rcases lt_trichotomy (normKey m qv p1.2.embedding) (normKey m qv p2.2.embedding)
        with h3 | h3 | h3
      · exact Or.inl h3
      · exact Or.inr ⟨h3, h2⟩
      · exact absurd h3 h1
  · rintro (h | ⟨h1, h2⟩)
    · exact Or.inl h
    · exact Or.inr ⟨by rw [h1]; exact lt_irrefl _, h2⟩

theorem tagLtB_trans (m : Metric) (qv : Vec) (p1 p2 p3 : ℕ × VectorRecord)
    (h12 : tagLtB m qv p1 p2 = true) (h23 : tagLtB m qv p2 p3 = true) :
    tagLtB m qv p1 p3 = true := by
  rw [tagLtB_iff] at h12 h23 ⊢
  rcases h12 with h12 | ⟨h12, h12p⟩ <;> rcases h23 with h23 | ⟨h23, h23p⟩
  · exact Or.inl (lt_trans h12 h23)
  · exact Or.inl (h23 ▸ h12)
  · exact Or.inl (h12 ▸ h23)
  · exact Or.inr ⟨h12.trans h23, lt_trans h12p h23p⟩

theorem tagLtB_asymm (m : Metric) (qv : Vec) (p1 p2 : ℕ × VectorRecord)
    (h : tagLtB m qv p1 p2 = true) : tagLtB m qv p2 p1 = false := by
  rcases h2 : tagLtB m qv p2 p1 with _ | _
  · rfl
  · rw [tagLtB_iff] at h h2
    exfalso
    rcases h with h | ⟨h, hp⟩ <;> rcases h2 with h2 | ⟨h2, hp2⟩
    · exact absurd (lt_trans h h2) (lt_irrefl _)
    · exact absurd h (h2 ▸ lt_irrefl _)
    · exact absurd h2 (h ▸ lt_irrefl _)
    · exact absurd (lt_trans hp hp2) (lt_irrefl _)

theorem insertRanked_perm (lt : α → α → Bool) (a : α) (l : List α) :
    List.Perm (insertRanked lt a l) (a :: l) := by
  induction l with
  | nil => exact List.Perm.refl _
  | cons b bs ih =>
    unfold insertRanked
    by_cases h : lt a b = true
    · rw [if_pos h]
    · rw [if_neg h]
      exact (List.Perm.cons b ih).trans (List.Perm.swap a b bs)

theorem stableSort_perm (lt : α → α → Bool) (xs : List α) :
    List.Perm (stableSort lt xs) xs := by
  have key : ∀ (ys : List α) (acc : List α),
      List.Perm (ys.foldl (fun acc a => insertRanked lt a acc) acc) (acc ++ ys) := by
    intro ys
    induction ys with
    | nil => intro acc; simp
    | cons a ys ih =>
      intro acc
      have h1 : (a :: ys).foldl (fun acc a => insertRanked lt a acc) acc
          = ys.foldl (fun acc a => insertRanked lt a acc) (insertRanked lt a acc) := rfl
      rw [h1]
      have h2 := ih (insertRanked lt a acc)
      have h3 : List.Perm (insertRanked lt a acc ++ ys) ((a :: acc) ++ ys) :=
        (insertRanked_perm lt a acc).append_right ys
      have h4 : List.Perm ((a :: acc) ++ ys) (acc ++ a :: ys) := by
        exact (List.perm_middle).symm
      exact (h2.trans h3).trans h4
  simpa using key xs []

theorem insertRanked_pairwise (lt : α → α → Bool)
    (htr : ∀ x y z, lt x y = true → lt y z = true → lt x z = true)
    (has : ∀ x y, lt x y = true → lt y x = false)
    (a : α) (l : List α) (h : l.Pairwise (fun x y => lt y x = false)) :
    (insertRanked lt a l).Pairwise (fun x y => lt y x = false) := by
  induction l with
  | nil => simp [insertRanked]
  | cons b bs ih =>
    rw [List.pairwise_cons] at h
    unfold insertRanked
    by_cases hab : lt a b = true
    · rw [if_pos hab, List.pairwise_cons]
      refine ⟨?_, List.pairwise_cons.mpr h⟩
      intro y hy
      rcases List.mem_cons.mp hy with hyb | hybs
      · subst hyb; exact has a y hab
      · rcases hya : lt y a with _ | _
        · rfl
        · exfalso
          have hyb : lt y b = true := htr y a b hya hab
          rw [h.1 y hybs] at hyb
          exact Bool.noConfusion hyb
    · rw [if_neg hab, List.pairwise_cons]
      refine ⟨?_, ih h.2⟩
      intro y hy
      rcases List.mem_cons.mp ((insertRanked_perm lt a bs).mem_iff.mp hy)
        with hya | hybs
      · subst hya
        exact Bool.eq_false_iff.mpr hab
      · exact h.1 y hybs

theorem stableSort_pairwise (lt : α → α → Bool)
    (htr : ∀ x y z, lt x y = true → lt y z = true → lt x z = true)
    (has : ∀ x y, lt x y = true → lt y x = false)
    (xs : List α) :
    (stableSort lt xs).Pairwise (fun x y => lt y x = false) := by
  have key : ∀ (ys acc : List α), acc.Pairwise (fun x y => lt y x = false) →
      (ys.foldl (fun acc a => insertRanked lt a acc) acc).Pairwise
        (fun x y => lt y x = false) := by
    intro ys
    induction ys with
    | nil => intro acc h; exact h
    | cons a ys ih =>
      intro acc h
      exact ih _ (insertRanked_pairwise lt htr has a acc h)
  exact key xs [] List.Pairwise.nil

theorem mem_tagFrom (n : ℕ) (l : List α) (p : ℕ × α) (h : p ∈ tagFrom n l) :
    n ≤ p.1 ∧ p.2 ∈ l := by
  induction l generalizing n with
  | nil => cases h
  | cons a as ih =>
    rcases List.mem_cons.mp h with h1 | h1
    · subst h1
      exact ⟨le_refl n, List.mem_cons_self a as⟩
    · have h2 := ih (n + 1) h1
      exact ⟨by omega, List.mem_cons_of_mem a h2.2⟩

theorem tagFrom_pairwise_lt (n : ℕ) (l : List α) :
    (tagFrom n l).Pairwise (fun p q => p.1 < q.1) := by
  induction l generalizing n with
  | nil => exact List.Pairwise.nil
  | cons a as ih =>
    rw [show tagFrom n (a :: as) = (n, a) :: tagFrom (n + 1) as from rfl,
      List.pairwise_cons]
    refine ⟨fun q hq => ?_, ih (n + 1)⟩
    have h2 := (mem_tagFrom (n + 1) as q hq).1
    omega

theorem tagFrom_append (n : ℕ) (l1 l2 : List α) :
    tagFrom n (l1 ++ l2) = tagFrom n l1 ++ tagFrom (n + l1.length) l2 := by
  induction l1 generalizing n with
  | nil => simp [tagFrom]
  | cons a as ih =>
    have h : tagFrom n (a :: (as ++ l2)) = (n, a) :: tagFrom (n + 1) (as ++ l2) := rfl
    rw [List.cons_append, h, ih (n + 1)]
    have h2 : (n + 1) + as.length = n + (a :: as).length := by
      simp only [List.length_cons]
      omega
    rw [h2]
    rfl

theorem passesThreshold_iff (m : Metric) (qv e : Vec) (θ : ℚ) :
    passesThreshold m qv e θ = true ↔
      (if isSimilarity m then ((θ : ℚ) : ℝ) ≤ score m qv e
       else score m qv e ≤ ((θ : ℚ) : ℝ)) := by
  cases m with
  | cosine =>
    show decide (signedSq θ ≤ qkey .cosine qv e) = true ↔
      ((θ : ℚ) : ℝ) ≤ cosineSim qv e
    rw [decide_eq_true_eq, ← Rat.cast_le (K := ℝ), ← strictMono_mul_abs.le_iff_le
      (a := ((θ : ℚ) : ℝ)) (b := cosineSim qv e)]
    simp only [cosineSim_mul_abs]
    constructor
    · intro h
      calc ((θ : ℚ) : ℝ) * |((θ : ℚ) : ℝ)| = ((signedSq θ : ℚ) : ℝ) := by
            unfold signedSq
            push_cast
            rfl
        _ ≤ _ := h
    · intro h
      calc ((signedSq θ : ℚ) : ℝ) = ((θ : ℚ) : ℝ) * |((θ : ℚ) : ℝ)| := by
            unfold signedSq
            push_cast
            rfl
        _ ≤ _ := h
  | dotProduct =>
    show decide (θ ≤ qkey .dotProduct qv e) = true ↔
      ((θ : ℚ) : ℝ) ≤ ((dotQ qv e : ℚ) : ℝ)
    rw [decide_eq_true_eq, Rat.cast_le]
    rfl
  | euclidean =>
    show decide (qkey .euclidean qv e ≤ signedSq θ) = true ↔
      euclideanDist qv e ≤ ((θ : ℚ) : ℝ)
    rw [decide_eq_true_eq, ← Rat.cast_le (K := ℝ), ← strictMono_mul_abs.le_iff_le
      (a := euclideanDist qv e) (b := ((θ : ℚ) : ℝ))]
    simp only [euclideanDist_mul_abs]
    constructor
    · intro h
      calc ((qkey .euclidean qv e : ℚ) : ℝ) ≤ ((signedSq θ : ℚ) : ℝ) := h
        _ = ((θ : ℚ) : ℝ) * |((θ : ℚ) : ℝ)| := by
            unfold signedSq
            push_cast
            rfl
    · intro h
      calc ((qkey .euclidean qv e : ℚ) : ℝ)
          ≤ ((θ : ℚ) : ℝ) * |((θ : ℚ) : ℝ)| := h
        _ = ((signedSq θ : ℚ) : ℝ) := by
            unfold signedSq
            push_cast
            rfl

theorem filteredTags_sublist (rs : List VectorRecord) (qv : Vec) (m : Metric)
    (t : Option ℚ) : (filteredTags rs qv m t).Sublist (tagFrom 0 rs) := by
  unfold filteredTags
  cases t with
  | none => exact List.Sublist.refl _
  | some θ => exact List.filter_sublist _

theorem queryTagged_pairwise_nlt (rs : List VectorRecord) (qv : Vec)
    (m : Metric) (t : Option ℚ) :
    (VectorIndex.queryTagged rs qv m t).Pairwise
      (fun p1 p2 => tagLtB m qv p2 p1 = false) :=
  stableSort_pairwise _ (tagLtB_trans m qv) (tagLtB_asymm m qv) _

theorem queryTagged_perm (rs : List VectorRecord) (qv : Vec) (m : Metric)
    (t : Option ℚ) :
    List.Perm (VectorIndex.queryTagged rs qv m t) (filteredTags rs qv m t) :=
  stableSort_perm _ _

theorem queryTagged_nodup_fst (rs : List VectorRecord) (qv : Vec) (m : Metric)
    (t : Option ℚ) :
    ((VectorIndex.queryTagged rs qv m t).map Prod.fst).Nodup := by
  have h1 : (filteredTags rs qv m t).Pairwise (fun p q => p.1 < q.1) :=
    List.Pairwise.sublist (filteredTags_sublist rs qv m t)
      (tagFrom_pairwise_lt 0 rs)
  have h2 : ((filteredTags rs qv m t).map Prod.fst).Nodup :=
    List.Pairwise.map Prod.fst (fun _ _ hlt => Nat.ne_of_lt hlt) h1
  exact (((queryTagged_perm rs qv m t).map Prod.fst).nodup_iff).mpr h2

theorem normKey_eq_of_score_eq (m : Metric) (qv e1 e2 : Vec)
    (h : score m qv e1 = score m qv e2) :
    normKey m qv e1 = normKey m qv e2 := by
  have hq := (qkey_eq_iff m qv e1 e2).mpr h
  unfold normKey
  by_cases hs : isSimilarity m = true
  · simp [hs, hq]
  · simp [hs, hq]

theorem score_dir_of_normKey_le (m : Metric) (qv e1 e2 : Vec)
    (h : normKey m qv e1 ≤ normKey m qv e2) :
    if isSimilarity m then score m qv e2 ≤ score m qv e1
    else score m qv e1 ≤ score m qv e2 := by
  by_cases hs : isSimilarity m = true
  · simp only [normKey, hs, if_true] at h
    simp only [hs, if_true]
    exact (qkey_le_iff m qv e2 e1).mp (by linarith)
  · simp only [normKey, hs, if_false] at h
    simp only [hs, if_false]
    exact (qkey_le_iff m qv e1 e2).mp h

theorem queryTagged_ties_insertion (rs : List VectorRecord) (qv : Vec)
    (m : Metric) (t : Option ℚ) :
    (VectorIndex.queryTagged rs qv m t).Pairwise
      (fun p1 p2 => score m qv p1.2.embedding = score m qv p2.2.embedding →
        p1.1 < p2.1) := by
  have h1 := queryTagged_pairwise_nlt rs qv m t
  have h2 : (VectorIndex.queryTagged rs qv m t).Pairwise
      (fun p1 p2 => p1.1 ≠ p2.1) :=
    List.pairwise_map.mp (queryTagged_nodup_fst rs qv m t)
  refine (h1.and h2).imp ?_
  intro p1 p2 hp hsc
  obtain ⟨hn, hne⟩ := hp
  have hkeq : normKey m qv p2.2.embedding = normKey m qv p1.2.embedding :=
    normKey_eq_of_score_eq m qv _ _ hsc.symm
  have hfalse : ¬(normKey m qv p2.2.embedding < normKey m qv p1.2.embedding
      ∨ (normKey m qv p2.2.embedding = normKey m qv p1.2.embedding
        ∧ p2.1 < p1.1)) := by
    intro hcon
    have hb := (tagLtB_iff m qv p2 p1).mpr hcon
    rw [hn] at hb
    exact Bool.noConfusion hb
  push_neg at hfalse
  have hnotlt := hfalse.2 hkeq
  omega

theorem query_eq_of_dim (idx : VectorIndex) (qv : Vec) (k : Int) (m : Metric)
    (t : Option ℚ) (d : ℕ) (hd : idx.dim = some d) (hqd : qv.length = d) :
    VectorIndex.query idx qv k m t =
      .ok (((VectorIndex.queryTagged idx.records qv m t).map Prod.snd).take
        k.toNat) := by
  simp [VectorIndex.query, hd, hqd]

theorem query_none_dim (idx : VectorIndex) (qv : Vec) (k : Int) (m : Metric)
    (t : Option ℚ) (hd : idx.dim = none) :
    VectorIndex.query idx qv k m t = .ok [] := by
  simp [VectorIndex.query, hd]

theorem query_mismatch (idx : VectorIndex) (qv : Vec) (k : Int) (m : Metric)
    (t : Option ℚ) (d : ℕ) (hd : idx.dim = some d) (hqd : qv.length ≠ d) :
    VectorIndex.query idx qv k m t = .error .DimensionMismatch := by
  simp [VectorIndex.query, hd, hqd]

theorem insert_none_dim (idx : VectorIndex) (r : VectorRecord)
    (hd : idx.dim = none) :
    VectorIndex.insert idx r =
      .ok ⟨some r.embedding.length, idx.records ++ [r]⟩ := by
  simp [VectorIndex.insert, hd]

theorem insert_some_ok (idx : VectorIndex) (r : VectorRecord) (d : ℕ)
    (hd : idx.dim = some d) (hr : r.embedding.length = d) :
    VectorIndex.insert idx r = .ok ⟨some d, idx.records ++ [r]⟩ := by
  simp [VectorIndex.insert, hd, hr]

theorem insert_mismatch_eq (idx : VectorIndex) (r : VectorRecord) (d : ℕ)
    (hd : idx.dim = some d) (hr : r.embedding.length ≠ d) :
    VectorIndex.insert idx r = .error .DimensionMismatch := by
  simp [VectorIndex.insert, hd, hr]

theorem pairwise_eq_cons_of_min (lt : α → α → Bool) (l : List α) (x : α)
    (hpw : l.Pairwise (fun a b => lt b a = false))
    (hmem : x ∈ l) (hmin : ∀ y ∈ l, y ≠ x → lt x y = true) :
    ∃ tl, l = x :: tl := by
  cases l with
  | nil => cases hmem
  | cons h tl =>
    by_cases hx : h = x
    · subst hx
      exact ⟨tl, rfl⟩
    · exfalso
      have hxtl : x ∈ tl := by
        rcases List.mem_cons.mp hmem with h1 | h1
        · exact absurd h1.symm hx
        · exact h1
      have h1 : lt x h = false := (List.pairwise_cons.mp hpw).1 x hxtl
      have h2 : lt x h = true := hmin h (List.mem_cons_self h tl) hx
      rw [h1] at h2
      exact Bool.noConfusion h2

/-- C3: a successful `query` returns at most k records, pairwise ordered by
the chosen metric's real score - descending for the similarity metrics,
ascending for the distance metric - and, on the fully sorted tagged pipeline
the result is cut from, any two entries with equal scores appear in insertion
order (earliest first). `query` is a pure function of its inputs, so
identical inputs always produce identical results. -/
theorem query_at_most_k_sorted_stable (idx : VectorIndex) (qv : Vec) (k : Int)
    (m : Metric) (t : Option ℚ) (out : List VectorRecord)
    (hne : idx.records ≠ []) (hk : 0 ≤ k)
    (hq : VectorIndex.query idx qv k m t = .ok out) :
    (out.length : Int) ≤ k
    ∧ out.Pairwise (fun r1 r2 =>
        if isSimilarity m then score m qv r2.embedding ≤ score m qv r1.embedding
        else score m qv r1.embedding ≤ score m qv r2.embedding)
    ∧ (VectorIndex.queryTagged idx.records qv m t).Pairwise
        (fun p1 p2 => score m qv p1.2.embedding = score m qv p2.2.embedding →
          p1.1 < p2.1) := by
  have hties := queryTagged_ties_insertion idx.records qv m t
  cases hd : idx.dim with
  | none =>
    rw [query_none_dim idx qv k m t hd] at hq
    simp only [Except.ok.injEq] at hq
    rw [← hq]
    exact ⟨by simpa using hk, List.Pairwise.nil, hties⟩
  | some d =>
    by_cases hqd : qv.length = d
    · rw [query_eq_of_dim idx qv k m t d hd hqd] at hq
      simp only [Except.ok.injEq] at hq
      rw [← hq]
      refine ⟨?_, ?_, hties⟩
      · have h1 := List.length_take_le k.toNat
          ((VectorIndex.queryTagged idx.records qv m t).map Prod.snd)
        omega
      · have h1 := queryTagged_pairwise_nlt idx.records qv m t
        have h2 : (VectorIndex.queryTagged idx.records qv m t).Pairwise
            (fun p1 p2 =>
              if isSimilarity m then
                score m qv p2.2.embedding ≤ score m qv p1.2.embedding
              else score m qv p1.2.embedding ≤ score m qv p2.2.embedding) := by
          refine h1.imp ?_
          intro p1 p2 hn
          have hle : normKey m qv p1.2.embedding ≤ normKey m qv p2.2.embedding := by
            by_contra hcon
            push_neg at hcon
            have hb := (tagLtB_iff m qv p2 p1).mpr (Or.inl hcon)
            rw [hn] at hb
            exact Bool.noConfusion hb
          exact score_dir_of_normKey_le m qv _ _ hle
        have h3 : ((VectorIndex.queryTagged idx.records qv m t).map
            Prod.snd).Pairwise (fun r1 r2 =>
              if isSimilarity m then
                score m qv r2.embedding ≤ score m qv r1.embedding
              else score m qv r1.embedding ≤ score m qv r2.embedding) := by
          rw [List.pairwise_map]
          exact h2
        exact List.Pairwise.sublist (List.take_sublist _ _) h3
    · rw [query_mismatch idx qv k m t d hd hqd] at hq
      exact absurd hq (by simp)

/-- C3 witness: a one-record index queried with the dot-product metric. -/
theorem query_at_most_k_sorted_stable_witness :
    (⟨some 1, [⟨0, "r", [], [1]⟩]⟩ : VectorIndex).records ≠ []
    ∧ (0 : Int) ≤ 1
    ∧ VectorIndex.query ⟨some 1, [⟨0, "r", [], [1]⟩]⟩ [1] 1 .dotProduct none =
        .ok [⟨0, "r", [], [1]⟩]
    ∧ ((([⟨0, "r", [], [1]⟩] : List VectorRecord).length : Int) ≤ 1
      ∧ ([⟨0, "r", [], [1]⟩] : List VectorRecord).Pairwise (fun r1 r2 =>
          if isSimilarity .dotProduct then
            score .dotProduct [1] r2.embedding ≤ score .dotProduct [1] r1.embedding
          else score .dotProduct [1] r1.embedding ≤ score .dotProduct [1] r2.embedding)
      ∧ (VectorIndex.queryTagged [⟨0, "r", [], [1]⟩] [1] .dotProduct
          none).Pairwise (fun p1 p2 =>
            score .dotProduct [1] p1.2.embedding =
              score .dotProduct [1] p2.2.embedding → p1.1 < p2.1)) :=
  ⟨by decide, by decide, rfl,
    query_at_most_k_sorted_stable ⟨some 1, [⟨0, "r", [], [1]⟩]⟩ [1] 1
      .dotProduct none [⟨0, "r", [], [1]⟩] (by decide) (by decide) rfl⟩

/-- C4 (counterexample): under the cosine metric an earlier record that is
positively colinear with - but not a duplicate of - the newly inserted
embedding ties at maximal similarity and wins by insertion order: inserting
embeddings [2, 0] then [1, 0] and querying with [1, 0] ranks the earlier
record first, so the new record is not at rank 0 although no earlier record
duplicates its embedding. -/
theorem roundtrip_cosine_counterexample :
    VectorIndex.insert emptyIndex ⟨0, "first", [], [2, 0]⟩ =
      .ok ⟨some 2, [⟨0, "first", [], [2, 0]⟩]⟩
    ∧ VectorIndex.insert ⟨some 2, [⟨0, "first", [], [2, 0]⟩]⟩
        ⟨1, "second", [], [1, 0]⟩ =
      .ok ⟨some 2, [⟨0, "first", [], [2, 0]⟩, ⟨1, "second", [], [1, 0]⟩]⟩
    ∧ ([2, 0] : Vec) ≠ [1, 0]
    ∧ VectorIndex.query
        ⟨some 2, [⟨0, "first", [], [2, 0]⟩, ⟨1, "second", [], [1, 0]⟩]⟩
        [1, 0] 1 .cosine none = .ok [⟨0, "first", [], [2, 0]⟩] := by
  refine ⟨rfl, rfl, by decide, ?_⟩
  unfold VectorIndex.query VectorIndex.queryTagged filteredTags stableSort
  norm_num [tagFrom, insertRanked, tagLtB, rankLtB, normKey, isSimilarity,
    qkey, signedSq, dotQ, sumSq]

/-- C4 (amended: restricted to the Euclidean-distance metric, where ties
really are duplicate embeddings): inserting a record and querying with its
own embedding E (k ≥ 1) returns that record at rank 0 and its distance score
is zero, provided every earlier record has E's dimensionality and none
duplicates E. Under the similarity metrics the property fails: with the dot
product an earlier record can score strictly higher than dot(E, E), and with
cosine an earlier positively-colinear non-duplicate ties ahead (see the
counterexample). -/
theorem roundtrip_euclidean (idx idx' : VectorIndex) (r : VectorRecord)
    (k : Int) (hins : VectorIndex.insert idx r = .ok idx')
    (hlen : ∀ r2 ∈ idx.records, r2.embedding.length = r.embedding.length)
    (hdup : ∀ r2 ∈ idx.records, r2.embedding ≠ r.embedding)
    (hk : 1 ≤ k) :
    (∃ rest, VectorIndex.query idx' r.embedding k .euclidean none =
      .ok (r :: rest))
    ∧ score .euclidean r.embedding r.embedding = 0 := by
  have hidx : idx'.dim = some r.embedding.length
      ∧ idx'.records = idx.records ++ [r] := by
    cases hd : idx.dim with
    | none =>
      rw [insert_none_dim idx r hd] at hins
      simp only [Except.ok.injEq] at hins
      rw [← hins]
      exact ⟨rfl, rfl⟩
    | some d =>
      by_cases hr : r.embedding.length = d
      · rw [insert_some_ok idx r d hd hr] at hins
        simp only [Except.ok.injEq] at hins
        rw [← hins]
        exact ⟨by rw [hr], rfl⟩
      · rw [insert_mismatch_eq idx r d hd hr] at hins
        exact absurd hins (by simp)
  obtain ⟨hdim', hrec'⟩ := hidx
  constructor
  · rw [query_eq_of_dim idx' r.embedding k .euclidean none
      r.embedding.length hdim' rfl]
    have hsorted := queryTagged_pairwise_nlt idx'.records r.embedding
      .euclidean none
    have hmem : (idx.records.length, r) ∈
        VectorIndex.queryTagged idx'.records r.embedding .euclidean none := by
      rw [(queryTagged_perm _ _ _ _).mem_iff]
      show (idx.records.length, r) ∈
        filteredTags idx'.records r.embedding .euclidean none
      unfold filteredTags
      rw [hrec', tagFrom_append]
      simp [tagFrom]
    have hmin : ∀ y ∈ VectorIndex.queryTagged idx'.records r.embedding
        .euclidean none, y ≠ (idx.records.length, r) →
        tagLtB .euclidean r.embedding (idx.records.length, r) y = true := by
      intro y hy hyx
      have hy2 : y ∈ filteredTags idx'.records r.embedding .euclidean none :=
        (queryTagged_perm _ _ _ _).mem_iff.mp hy
      unfold filteredTags at hy2
      rw [hrec', tagFrom_append] at hy2
      rcases List.mem_append.mp hy2 with hy3 | hy3
      · have hmem2 := mem_tagFrom 0 idx.records y hy3
        have hne2 := hdup y.2 hmem2.2
        have hlen2 := hlen y.2 hmem2.2
        rw [tagLtB_iff]
        left
        show normKey .euclidean r.embedding r.embedding <
          normKey .euclidean r.embedding y.2.embedding
        have h1 : normKey .euclidean r.embedding r.embedding = 0 := by
          simp [normKey, isSimilarity, qkey, sqDist_self]
        have hne0 : sqDist r.embedding y.2.embedding ≠ 0 := by
          intro h0
          exact hne2
            (((sqDist_eq_zero_iff r.embedding y.2.embedding hlen2.symm).mp
              h0).symm)
        have h2 : 0 < normKey .euclidean r.embedding y.2.embedding := by
          have hnn := sqDist_nonneg r.embedding y.2.embedding
          have hlt := lt_of_le_of_ne hnn (Ne.symm hne0)
          simpa [normKey, isSimilarity, qkey] using hlt
        rw [h1]
        exact h2
      · exfalso
        apply hyx
        simpa [tagFrom] using hy3
    obtain ⟨tl, htl⟩ := pairwise_eq_cons_of_min
      (tagLtB .euclidean r.embedding) _ (idx.records.length, r)
      hsorted hmem hmin
    rw [htl]
    obtain ⟨n, hn⟩ : ∃ n, k.toNat = n + 1 := ⟨k.toNat - 1, by omega⟩
    rw [show ((idx.records.length, r) :: tl).map Prod.snd =
      r :: tl.map Prod.snd from rfl, hn, List.take_succ_cons]
    exact ⟨(tl.map Prod.snd).take n, rfl⟩
  · show euclideanDist r.embedding r.embedding = 0
    unfold euclideanDist
    rw [sqDist_self]
    simp

/-- C4 witness: a one-record index of dimension 2, a fresh record [1, 0]. -/
theorem roundtrip_euclidean_witness :
    VectorIndex.insert ⟨some 2, [⟨0, "far", [], [0, 1]⟩]⟩
        ⟨1, "new", [], [1, 0]⟩ =
      .ok ⟨some 2, [⟨0, "far", [], [0, 1]⟩, ⟨1, "new", [], [1, 0]⟩]⟩
    ∧ (∀ r2 ∈ (⟨some 2, [⟨0, "far", [], [0, 1]⟩]⟩ : VectorIndex).records,
        r2.embedding.length =
          (⟨1, "new", [], [1, 0]⟩ : VectorRecord).embedding.length)
    ∧ (∀ r2 ∈ (⟨some 2, [⟨0, "far", [], [0, 1]⟩]⟩ : VectorIndex).records,
        r2.embedding ≠ (⟨1, "new", [], [1, 0]⟩ : VectorRecord).embedding)
    ∧ (1 : Int) ≤ 1
    ∧ ((∃ rest, VectorIndex.query
          ⟨some 2, [⟨0, "far", [], [0, 1]⟩, ⟨1, "new", [], [1, 0]⟩]⟩
          (⟨1, "new", [], [1, 0]⟩ : VectorRecord).embedding 1 .euclidean none =
          .ok (⟨1, "new", [], [1, 0]⟩ :: rest))
      ∧ score .euclidean (⟨1, "new", [], [1, 0]⟩ : VectorRecord).embedding
          (⟨1, "new", [], [1, 0]⟩ : VectorRecord).embedding = 0) :=
  ⟨rfl, by decide, by decide, by decide,
    roundtrip_euclidean ⟨some 2, [⟨0, "far", [], [0, 1]⟩]⟩
      ⟨some 2, [⟨0, "far", [], [0, 1]⟩, ⟨1, "new", [], [1, 0]⟩]⟩
      ⟨1, "new", [], [1, 0]⟩ 1 rfl (by decide) (by decide) (by decide)⟩

/-- C5: the spec's concrete scenario - insert A = [1, 0], B = [0, 1],
C = [0.9, 0.1] in that order; under the cosine metric query([1, 0], k = 2)
returns [A, C] in that order. -/
theorem cosine_scenario_A_C :
    VectorIndex.insert emptyIndex ⟨0, "A", [], [1, 0]⟩ =
      .ok ⟨some 2, [⟨0, "A", [], [1, 0]⟩]⟩
    ∧ VectorIndex.insert ⟨some 2, [⟨0, "A", [], [1, 0]⟩]⟩ ⟨1, "B", [], [0, 1]⟩ =
      .ok ⟨some 2, [⟨0, "A", [], [1, 0]⟩, ⟨1, "B", [], [0, 1]⟩]⟩
    ∧ VectorIndex.insert ⟨some 2, [⟨0, "A", [], [1, 0]⟩, ⟨1, "B", [], [0, 1]⟩]⟩
        ⟨2, "C", [], [9/10, 1/10]⟩ =
      .ok ⟨some 2, [⟨0, "A", [], [1, 0]⟩, ⟨1, "B", [], [0, 1]⟩,
        ⟨2, "C", [], [9/10, 1/10]⟩]⟩
    ∧ VectorIndex.query
        ⟨some 2, [⟨0, "A", [], [1, 0]⟩, ⟨1, "B", [], [0, 1]⟩,
          ⟨2, "C", [], [9/10, 1/10]⟩]⟩
        [1, 0] 2 .cosine none =
      .ok [⟨0, "A", [], [1, 0]⟩, ⟨2, "C", [], [9/10, 1/10]⟩] := by
  refine ⟨rfl, rfl, rfl, ?_⟩
  unfold VectorIndex.query VectorIndex.queryTagged filteredTags stableSort
  norm_num [tagFrom, insertRanked, tagLtB, rankLtB, normKey, isSimilarity,
    qkey, signedSq, dotQ, sumSq, abs_div]
  rfl

/-- C6: inserting a record whose embedding dimensionality disagrees with the
index's established dimensionality fails with DimensionMismatch; the call
returns only the error, so the caller's index - in particular its stored
record count - is exactly what it was before, and no record is added. -/
theorem insert_dim_mismatch (idx : VectorIndex) (r : VectorRecord) (d : ℕ)
    (hd : idx.dim = some d) (hr : r.embedding.length ≠ d) :
    VectorIndex.insert idx r = .error .DimensionMismatch
    ∧ ∀ idx2, VectorIndex.insert idx r = .ok idx2 → False := by
  have h : VectorIndex.insert idx r = .error .DimensionMismatch := by
    simp [VectorIndex.insert, hd, hr]
  refine ⟨h, fun idx2 h2 => ?_⟩
  rw [h] at h2
  exact Except.noConfusion h2

/-- C6 witness: a dimension-4 index and a 3-dimensional record. -/
theorem insert_dim_mismatch_witness :
    (⟨some 4, [⟨0, "w", [], [1, 2, 3, 4]⟩]⟩ : VectorIndex).dim = some 4
    ∧ (⟨1, "x", [], [1, 2, 3]⟩ : VectorRecord).embedding.length ≠ 4
    ∧ (VectorIndex.insert ⟨some 4, [⟨0, "w", [], [1, 2, 3, 4]⟩]⟩
          ⟨1, "x", [], [1, 2, 3]⟩ = .error .DimensionMismatch
      ∧ ∀ idx2, VectorIndex.insert ⟨some 4, [⟨0, "w", [], [1, 2, 3, 4]⟩]⟩
          ⟨1, "x", [], [1, 2, 3]⟩ = .ok idx2 → False) :=
  ⟨rfl, by decide,
    insert_dim_mismatch ⟨some 4, [⟨0, "w", [], [1, 2, 3, 4]⟩]⟩
      ⟨1, "x", [], [1, 2, 3]⟩ 4 rfl (by decide)⟩
